import Mathlib

/-!
# Verification of `RangeMap` (src/range_map.rs)

A shallow embedding of miri's `RangeMap<T>`: a map from `u64` offsets to
values, stored as a `BTreeMap<Range, T>` whose keys are half-open intervals
`[start, end)` forming a contiguous partition of `[0, size)`.

Modelling decisions:
* `u64` values are `Nat`s; every source-level `u64` addition is modelled by
  `checkedAdd`, which fails with `Panic.overflow` when the mathematical sum
  does not fit in 64 bits.  This matches `checked_add(..).unwrap()` in
  `Range::overlaps` and the debug-assertion semantics of the remaining plain
  `+` operations (the crate's own `#[cfg(test)]` suite runs under
  `cargo test`, i.e. with overflow checks on), and the documented policy
  that overflow is a fail-fast caller contract violation.
* The `BTreeMap` is embedded as an association list kept sorted by the
  derived lexicographic key order (`start` first, then `end`); `btInsert`,
  `btRemove` and `btRange` implement exactly the ordered-map operations the
  source relies on.  `values_mut` order is ascending key order, i.e. list
  order.
* Rust panics (`assert!`, `unwrap`, overflow) are `Except Panic` errors:
  `Panic.overflow` for arithmetic overflow, `Panic.assertFail` for the
  defensive internal assertions.  Lazy iterators are observed fully
  consumed; a run that panics at any point yields `.error`.
* Rust's `end` field is called `stop` here (`end` is a Lean keyword).
* Mutation through `iter_mut` / `iter_mut_all` is modelled by applying a
  caller-supplied function `f` to every yielded value (`f := fun _ => w`
  models "set every touched value to `w`").  Read-only `iter` takes no
  mutable state and returns values only, so "no mutation, no splitting" is
  structural in the model.
-/

namespace RM

/-- Panic reasons: arithmetic overflow of a `u64` addition, or one of the
defensive internal assertions (`assert!` / `unwrap`) firing. -/
inductive Panic where
  | overflow
  | assertFail
deriving DecidableEq

/-- `2^64`: the number of `u64` values. -/
def U64 : Nat := 2 ^ 64

/-- Checked `u64` addition: `a.checked_add(b).unwrap()`, and the semantics of
a plain `a + b` on `u64` under overflow checks. -/
def checkedAdd (a b : Nat) : Except Panic Nat :=
  if a + b < U64 then .ok (a + b) else .error .overflow

/-- The `Range` key: half-open interval `[start, stop)`.  Rust field `end`
is named `stop`.  Invariant (maintained, not enforced): `stop > start`. -/
structure Range where
  start : Nat
  stop : Nat
deriving DecidableEq

/-- The derived lexicographic `Ord`: first by `start`, then by `stop`. -/
def Range.blt (a b : Range) : Bool :=
  decide (a.start < b.start) || (a.start == b.start && decide (a.stop < b.stop))

/-- Non-strict version of the derived order. -/
def Range.ble (a b : Range) : Bool :=
  Range.blt a b || a == b

/-- `Range::range(offset, len)`: the sentinel window, a half-open interval
of keys containing every stored range that overlaps `[offset, offset+len)`. -/
def Range.range (offset len : Nat) : Except Panic (Range × Range) :=
  if len = 0 then
    .ok (⟨0, 1⟩, ⟨0, 1⟩)
  else do
    let e ← checkedAdd offset 1
    let s ← checkedAdd offset len
    let e2 ← checkedAdd s 1
    .ok (⟨0, e⟩, ⟨s, e2⟩)

/-- `Range::overlaps(offset, len)`: `len != 0 && offset < self.end &&
offset.checked_add(len).unwrap() >= self.start`, with Rust's `&&`
short-circuiting (the checked add is not evaluated when
`offset < self.end` fails). -/
def Range.overlaps (r : Range) (offset len : Nat) : Except Panic Bool :=
  if len = 0 then
    .ok false
  else if offset < r.stop then do
    let s ← checkedAdd offset len
    .ok (decide (r.start ≤ s))
  else
    .ok false

/-- `BTreeMap::insert`: returns the previous value at the key, if any, and
the updated (still sorted) map. -/
def btInsert (k : Range) (v : α) : List (Range × α) → Option α × List (Range × α)
  | [] => (none, [(k, v)])
  | (k', v') :: rest =>
    if Range.blt k k' then (none, (k, v) :: (k', v') :: rest)
    else if k = k' then (some v', (k, v) :: rest)
    else ((btInsert k v rest).1, (k', v') :: (btInsert k v rest).2)

/-- `BTreeMap::remove`: returns the removed value, if any, and the rest. -/
def btRemove (k : Range) : List (Range × α) → Option α × List (Range × α)
  | [] => (none, [])
  | (k', v') :: rest =>
    if k = k' then (some v', rest)
    else ((btRemove k rest).1, (k', v') :: (btRemove k rest).2)

/-- `BTreeMap::range(lo..hi)`: all entries with `lo ≤ key < hi` in the
derived order, in ascending key order. -/
def btRange (lo hi : Range) (m : List (Range × α)) : List (Range × α) :=
  m.filter (fun e => Range.ble lo e.1 && Range.blt e.1 hi)

/-- `RangeMap::new(size, init)`: one entry `{0, size} -> init` when
`size > 0`, else the empty map. -/
def RangeMap.new (size : Nat) (init : α) : List (Range × α) :=
  if 0 < size then [(⟨0, size⟩, init)] else []

/-- The `filter_map` stage of `iter_with_range`: keep the window candidates
that pass the exact `overlaps` test, fully consuming the iterator. -/
def filterOverlaps (offset len : Nat) : List (Range × α) → Except Panic (List (Range × α))
  | [] => .ok []
  | (k, v) :: rest => do
    let b ← Range.overlaps k offset len
    let tail ← filterOverlaps offset len rest
    .ok (if b then (k, v) :: tail else tail)

/-- `RangeMap::iter_with_range(offset, len)`: windowed scan plus exact
overlap filter, as a fully-consumed sequence of entries. -/
def iter_with_range (m : List (Range × α)) (offset len : Nat) :
    Except Panic (List (Range × α)) := do
  let s ← Range.range offset len
  filterOverlaps offset len (btRange s.1 s.2 m)

/-- `RangeMap::iter(offset, len)`: the values of `iter_with_range`. -/
def iter (m : List (Range × α)) (offset len : Nat) : Except Panic (List α) := do
  let l ← iter_with_range m offset len
  .ok (l.map Prod.snd)

/-- `RangeMap::iter_mut_all()`: every stored value, in `values_mut` order
(ascending key order). -/
def iter_mut_all (m : List (Range × α)) : List α :=
  m.map Prod.snd

/-- The effect of a consumer of `iter_mut_all()` that replaces every yielded
value `v` by `f v`. -/
def mutateAll (f : α → α) (m : List (Range × α)) : List (Range × α) :=
  m.map (fun e => (e.1, f e.2))

/-- The two inserts of `split_entry_at`, each followed by
`assert!(old.is_none())`:  insert `{start, offset} -> data.clone()`, then
`{offset, end} -> data`. -/
def splitInsert (m1 : List (Range × α)) (offset : Nat) (range : Range) (data : α) :
    Except Panic (List (Range × α)) :=
  if (btInsert ⟨range.start, offset⟩ data m1).1.isNone then
    if (btInsert ⟨offset, range.stop⟩ data
        (btInsert ⟨range.start, offset⟩ data m1).2).1.isNone then
      .ok (btInsert ⟨offset, range.stop⟩ data
        (btInsert ⟨range.start, offset⟩ data m1).2).2
    else .error .assertFail
  else .error .assertFail

/-- The body of `split_entry_at` once the overlapping entry is found:
`assert!(range.start <= offset && range.end > offset)`, then split it when
`offset` lies strictly inside (`remove(..).unwrap()` plus the two inserts). -/
def splitAtEntry (m : List (Range × α)) (offset : Nat) (range : Range) :
    Except Panic (List (Range × α)) :=
  if range.start ≤ offset ∧ offset < range.stop then
    if range.start < offset then
      match btRemove range m with
      | (some data, m1) => splitInsert m1 offset range data
      | (none, _) => .error .assertFail  -- remove(..).unwrap()
    else .ok m
  else .error .assertFail

/-- `RangeMap::split_entry_at(offset)`: find the first entry overlapping
`[offset, offset+1)`; if it strictly contains `offset`, remove it and insert
the two halves (duplicating the value), asserting that neither insert
displaces an existing key. -/
def split_entry_at (m : List (Range × α)) (offset : Nat) :
    Except Panic (List (Range × α)) := do
  let found ← iter_with_range m offset 1
  match found.head? with
  | none => .ok m
  | some (range, _) => splitAtEntry m offset range

/-- The `range_mut(..).filter_map(..)` stage of `iter_mut`: walk the map in
key order; inside the sentinel window, test `overlaps`, assert containment
in the request window, yield the old value and store `f` of it.  Returns the
updated map together with the yielded (pre-write) values in order. -/
def processMut (offset len : Nat) (lo hi : Range) (f : α → α) :
    List (Range × α) → Except Panic (List (Range × α) × List α)
  | [] => .ok ([], [])
  | (k, v) :: rest =>
    if Range.ble lo k && Range.blt k hi then do
      let b ← Range.overlaps k offset len
      if b then
        -- assert!(offset <= range.start && offset + len >= range.end)
        if offset ≤ k.start ∧ k.stop ≤ offset + len then do
          let t ← processMut offset len lo hi f rest
          .ok ((k, f v) :: t.1, v :: t.2)
        else .error .assertFail
      else do
        let t ← processMut offset len lo hi f rest
        .ok ((k, v) :: t.1, t.2)
    else do
      let t ← processMut offset len lo hi f rest
      .ok ((k, v) :: t.1, t.2)

/-- `RangeMap::iter_mut(offset, len)` consumed by a writer that replaces
every yielded value `v` by `f v`: split at both window boundaries when
`len > 0`, then scan the sentinel window.  Returns the resulting map and
the yielded (pre-write) values in order. -/
def iter_mut (m : List (Range × α)) (offset len : Nat) (f : α → α) :
    Except Panic (List (Range × α) × List α) := do
  let m1 ←
    if 0 < len then do
      let ma ← split_entry_at m offset
      let s ← checkedAdd offset len
      split_entry_at ma s
    else .ok m
  let sent ← Range.range offset len
  processMut offset len sent.1 sent.2 f m1

/-! ## Specification-side definitions (used to state the properties) -/

/-- True non-empty intersection of the key `[k.start, k.stop)` with the
query window `[offset, offset+len)`. -/
def intersects (k : Range) (offset len : Nat) : Bool :=
  decide (0 < len) && decide (offset < k.stop) && decide (k.start < offset + len)

/-- The entries of `m` truly intersecting the query window. -/
def selModel (offset len : Nat) (m : List (Range × α)) : List (Range × α) :=
  m.filter (fun e => intersects e.1 offset len)

/-- Replace the value of every entry intersecting the window by `f` of it. -/
def writeModel (offset len : Nat) (f : α → α) (m : List (Range × α)) :
    List (Range × α) :=
  m.map (fun e => if intersects e.1 offset len then (e.1, f e.2) else e)

/-- The intended effect of `split_entry_at o`: replace the entry strictly
containing `o` (if any) by its two halves. -/
def splitModel (o : Nat) : List (Range × α) → List (Range × α)
  | [] => []
  | (k, v) :: rest =>
    if k.start < o ∧ o < k.stop then
      (⟨k.start, o⟩, v) :: (⟨o, k.stop⟩, v) :: rest
    else
      (k, v) :: splitModel o rest

/-- The partition invariant: the entries, in list (= key) order, tile
`[lo, size)` contiguously: each key starts where the previous one stopped,
is non-empty, and the last one stops at `size`. -/
def tilesB (lo size : Nat) : List (Range × α) → Bool
  | [] => lo == size
  | (k, _) :: rest => (k.start == lo) && decide (lo < k.stop) && tilesB k.stop size rest

/-- The entries of `m` whose key contains the point `p`. -/
def pointFilter (m : List (Range × α)) (p : Nat) : List (Range × α) :=
  m.filter (fun e => decide (e.1.start ≤ p) && decide (p < e.1.stop))

/-- The values stored at the point `p` (the result of a single-point query
on a map whose keys all satisfy `stop > start`). -/
def pointVal (m : List (Range × α)) (p : Nat) : List α :=
  (pointFilter m p).map Prod.snd

/-- States reachable from `RangeMap::new (size, init)` by the public
operations.  `iter` reads without touching the state, so it contributes no
step; `split_entry_at` is included both on its own and as performed inside
`iter_mut`; `iter_mut` and `iter_mut_all` steps allow an arbitrary
value-transformation `f` by the consumer. -/
inductive Reach (size : Nat) (init : α) : List (Range × α) → Prop
  | base : Reach size init (RangeMap.new size init)
  | stepSplit (m : List (Range × α)) (o : Nat) (m' : List (Range × α)) :
      Reach size init m → split_entry_at m o = .ok m' → Reach size init m'
  | stepMut (m : List (Range × α)) (o len : Nat) (f : α → α) (m' : List (Range × α))
      (vs : List α) :
      Reach size init m → iter_mut m o len f = .ok (m', vs) → Reach size init m'
  | stepMutAll (m : List (Range × α)) (f : α → α) :
      Reach size init m → Reach size init (mutateAll f m)

/-! ## Basic lemmas -/

theorem ok_bind (a : β) (g : β → Except Panic γ) : (Except.ok a >>= g) = g a := rfl

theorem error_bind (e : Panic) (g : β → Except Panic γ) :
    (Except.error e >>= g) = .error e := rfl

theorem checkedAdd_ok {a b : Nat} (h : a + b < U64) : checkedAdd a b = .ok (a + b) := by
  simp [checkedAdd, h]

theorem checkedAdd_err {a b : Nat} (h : U64 ≤ a + b) :
    checkedAdd a b = .error .overflow := by
  simp [checkedAdd]
  omega

theorem range_sent {o len : Nat} (hl : 0 < len) (h : o + len + 1 < U64) :
    Range.range o len = .ok (⟨0, o + 1⟩, ⟨o + len, o + len + 1⟩) := by
  have h1 : o + 1 < U64 := by omega
  have h2 : o + len < U64 := by omega
  unfold Range.range
  rw [if_neg (by omega)]
  rw [checkedAdd_ok h1, ok_bind, checkedAdd_ok h2, ok_bind, checkedAdd_ok h, ok_bind]

theorem overlaps_ok {k : Range} {o len : Nat} (hl : 0 < len) (h : o + len < U64) :
    Range.overlaps k o len = .ok (decide (o < k.stop) && decide (k.start ≤ o + len)) := by
  unfold Range.overlaps
  rw [if_neg (by omega)]
  by_cases ho : o < k.stop
  · rw [if_pos ho, checkedAdd_ok h, ok_bind]
    simp [ho]
  · rw [if_neg ho]
    simp [ho]

/-- The combined window-plus-`overlaps` test equals true intersection, for a
non-degenerate key and a positive-length query. -/
theorem window_overlaps_eq {k : Range} {o len : Nat} (hk : k.start < k.stop)
    (hl : 0 < len) :
    ((Range.ble ⟨0, o + 1⟩ k && Range.blt k ⟨o + len, o + len + 1⟩) &&
      (decide (o < k.stop) && decide (k.start ≤ o + len))) = intersects k o len := by
  obtain ⟨ks, kt⟩ := k
  rw [Bool.eq_iff_iff]
  simp only [Range.ble, Range.blt, intersects, Bool.and_eq_true, Bool.or_eq_true,
    decide_eq_true_eq, beq_iff_eq, Range.mk.injEq] at *
  omega

/-- Out-of-window keys never truly intersect (contrapositive direction used
for the mutable path). -/
theorem intersects_window {k : Range} {o len : Nat} (hk : k.start < k.stop)
    (hi : intersects k o len = true) :
    (Range.ble ⟨0, o + 1⟩ k && Range.blt k ⟨o + len, o + len + 1⟩) = true := by
  have hl : 0 < len := by
    by_contra h
    simp [intersects, Nat.eq_zero_of_not_pos h] at hi
  have := @window_overlaps_eq k o len hk hl
  rw [hi] at this
  exact (Bool.and_eq_true _ _).mp this |>.1

theorem intersects_touch {k : Range} {o len : Nat} (hk : k.start < k.stop)
    (hi : intersects k o len = true) :
    (decide (o < k.stop) && decide (k.start ≤ o + len)) = true := by
  have hl : 0 < len := by
    by_contra h
    simp [intersects, Nat.eq_zero_of_not_pos h] at hi
  have := @window_overlaps_eq k o len hk hl
  rw [hi] at this
  exact (Bool.and_eq_true _ _).mp this |>.2

/-- The sentinel window used for a zero-length query, and any window with
`lo = hi`, contains no key. -/
theorem ble_blt_asymm (a k : Range) : (Range.ble a k && Range.blt k a) = false := by
  obtain ⟨as, at'⟩ := a
  obtain ⟨ks, kt⟩ := k
  rw [Bool.eq_false_iff]
  simp only [ne_eq, Range.ble, Range.blt, Bool.and_eq_true, Bool.or_eq_true,
    decide_eq_true_eq, beq_iff_eq, Range.mk.injEq]
  omega

/-! ## Characterization of the read path -/

theorem filterOverlaps_btRange {m : List (Range × α)} {o len : Nat}
    (hs : ∀ e ∈ m, (e : Range × α).1.start < e.1.stop) (hl : 0 < len)
    (h : o + len < U64) :
    filterOverlaps o len (btRange ⟨0, o + 1⟩ ⟨o + len, o + len + 1⟩ m) =
      .ok (selModel o len m) := by
  induction m with
  | nil => rfl
  | cons e rest ih =>
    obtain ⟨k, v⟩ := e
    have hk : k.start < k.stop := hs (k, v) (by simp)
    have ihr := ih (fun e he => hs e (by simp [he]))
    by_cases hw : (Range.ble ⟨0, o + 1⟩ k && Range.blt k ⟨o + len, o + len + 1⟩) = true
    · rw [btRange] at ihr ⊢
      simp only [List.filter_cons]
      rw [if_pos hw]
      rw [filterOverlaps, overlaps_ok hl h, ok_bind, ihr, ok_bind]
      have hsel : intersects k o len =
          (decide (o < k.stop) && decide (k.start ≤ o + len)) := by
        rw [← window_overlaps_eq hk hl, hw, Bool.true_and]
      simp only [selModel, List.filter_cons, hsel]
    · rw [btRange] at ihr ⊢
      simp only [List.filter_cons]
      rw [if_neg hw, ihr]
      have hsel : intersects k o len = false := by
        rw [← window_overlaps_eq hk hl, Bool.eq_false_iff.mpr hw, Bool.false_and]
      simp only [selModel, List.filter_cons, hsel]
      simp

theorem iwr_ok {m : List (Range × α)} {o len : Nat}
    (hs : ∀ e ∈ m, (e : Range × α).1.start < e.1.stop) (hl : 0 < len)
    (h : o + len + 1 < U64) :
    iter_with_range m o len = .ok (selModel o len m) := by
  rw [iter_with_range, range_sent hl h, ok_bind]
  exact filterOverlaps_btRange hs hl (by omega)

theorem iter_ok {m : List (Range × α)} {o len : Nat}
    (hs : ∀ e ∈ m, (e : Range × α).1.start < e.1.stop) (hl : 0 < len)
    (h : o + len + 1 < U64) :
    iter m o len = .ok ((selModel o len m).map Prod.snd) := by
  rw [iter, iwr_ok hs hl h, ok_bind]

theorem btRange_self_empty (lo : Range) (m : List (Range × α)) :
    btRange lo lo m = [] := by
  rw [btRange, List.filter_eq_nil_iff]
  intro e _
  simp [ble_blt_asymm lo e.1]

theorem iwr_zero (m : List (Range × α)) (o : Nat) :
    iter_with_range m o 0 = .ok [] := by
  rw [iter_with_range, Range.range, if_pos rfl, ok_bind, btRange_self_empty]
  rfl

theorem iter_zero (m : List (Range × α)) (o : Nat) : iter m o 0 = .ok [] := by
  rw [iter, iwr_zero, ok_bind]
  rfl

/-- The sentinel-arithmetic overflow cases of the read path: when
`o + len + 1` does not fit in a `u64`, `iter` panics with overflow
(either at `offset + 1`, at `offset + len`, or at `offset + len + 1`). -/
theorem range_sent_err {o len : Nat} (hl : 0 < len) (h : U64 ≤ o + len + 1) :
    Range.range o len = .error .overflow := by
  unfold Range.range
  rw [if_neg (by omega)]
  by_cases h1 : o + 1 < U64
  · rw [checkedAdd_ok h1, ok_bind]
    by_cases h2 : o + len < U64
    · rw [checkedAdd_ok h2, ok_bind, checkedAdd_err (by omega), error_bind]
    · rw [checkedAdd_err (by omega), error_bind]
  · rw [checkedAdd_err (by omega), error_bind]

theorem iwr_err {m : List (Range × α)} {o len : Nat} (hl : 0 < len)
    (h : U64 ≤ o + len + 1) : iter_with_range m o len = .error .overflow := by
  rw [iter_with_range, range_sent_err hl h, error_bind]

theorem iter_err {m : List (Range × α)} {o len : Nat} (hl : 0 < len)
    (h : U64 ≤ o + len + 1) : iter m o len = .error .overflow := by
  rw [iter, iwr_err hl h, error_bind]

/-! ## Consequences of the tiling invariant -/

theorem tilesB_mem_lt {m : List (Range × α)} {lo size : Nat}
    (h : tilesB lo size m = true) : ∀ e ∈ m, (e : Range × α).1.start < e.1.stop := by
  induction m generalizing lo with
  | nil => intro e he; simp at he
  | cons e rest ih =>
    obtain ⟨k, v⟩ := e
    rw [tilesB, Bool.and_eq_true, Bool.and_eq_true] at h
    obtain ⟨⟨h1, h2⟩, h3⟩ := h
    intro e' he'
    rcases List.mem_cons.mp he' with rfl | he'
    · simp only [beq_iff_eq] at h1
      simp only [decide_eq_true_eq] at h2
      simpa [h1] using h2
    · exact ih h3 e' he'

theorem tilesB_le {m : List (Range × α)} {lo size : Nat}
    (h : tilesB lo size m = true) : lo ≤ size := by
  induction m generalizing lo with
  | nil => rw [tilesB, beq_iff_eq] at h; omega
  | cons e rest ih =>
    obtain ⟨k, v⟩ := e
    rw [tilesB, Bool.and_eq_true, Bool.and_eq_true] at h
    obtain ⟨⟨h1, h2⟩, h3⟩ := h
    simp only [beq_iff_eq] at h1
    simp only [decide_eq_true_eq] at h2
    have := ih h3
    omega

theorem tilesB_bounds {m : List (Range × α)} {lo size : Nat}
    (h : tilesB lo size m = true) :
    ∀ e ∈ m, lo ≤ (e : Range × α).1.start ∧ e.1.stop ≤ size := by
  induction m generalizing lo with
  | nil => intro e he; simp at he
  | cons e rest ih =>
    obtain ⟨k, v⟩ := e
    rw [tilesB, Bool.and_eq_true, Bool.and_eq_true] at h
    obtain ⟨⟨h1, h2⟩, h3⟩ := h
    simp only [beq_iff_eq] at h1
    simp only [decide_eq_true_eq] at h2
    intro e' he'
    rcases List.mem_cons.mp he' with rfl | he'
    · have := tilesB_le h3
      show lo ≤ k.start ∧ k.stop ≤ size
      omega
    · have := ih h3 e' he'
      omega

theorem tilesB_pairwise {m : List (Range × α)} {lo size : Nat}
    (h : tilesB lo size m = true) :
    List.Pairwise (fun a b : Range × α => a.1.stop ≤ b.1.start) m := by
  induction m generalizing lo with
  | nil => exact List.Pairwise.nil
  | cons e rest ih =>
    obtain ⟨k, v⟩ := e
    rw [tilesB, Bool.and_eq_true, Bool.and_eq_true] at h
    obtain ⟨⟨h1, h2⟩, h3⟩ := h
    exact List.Pairwise.cons (fun b hb => (tilesB_bounds h3 b hb).1) (ih h3)

theorem tilesB_cover {m : List (Range × α)} {lo size : Nat}
    (h : tilesB lo size m = true) (x : Nat) :
    (lo ≤ x ∧ x < size) ↔ ∃ e ∈ m, (e : Range × α).1.start ≤ x ∧ x < e.1.stop := by
  induction m generalizing lo with
  | nil =>
    rw [tilesB, beq_iff_eq] at h
    constructor
    · rintro ⟨h1, h2⟩
      omega
    · rintro ⟨e, he, -⟩
      exact absurd he (List.not_mem_nil e)
  | cons e rest ih =>
    obtain ⟨k, v⟩ := e
    rw [tilesB, Bool.and_eq_true, Bool.and_eq_true] at h
    obtain ⟨⟨h1, h2⟩, h3⟩ := h
    simp only [beq_iff_eq] at h1
    simp only [decide_eq_true_eq] at h2
    constructor
    · rintro ⟨hx1, hx2⟩
      by_cases hx : x < k.stop
      · exact ⟨(k, v), by simp, by show k.start ≤ x; omega, hx⟩
      · obtain ⟨e', he', hc⟩ := (ih h3).mp ⟨by omega, hx2⟩
        exact ⟨e', by simp [he'], hc⟩
    · rintro ⟨e', he', hc1, hc2⟩
      rcases List.mem_cons.mp he' with rfl | he'
      · have hc1' : k.start ≤ x := hc1
        have hc2' : x < k.stop := hc2
        have := tilesB_le h3
        omega
      · have := (ih h3).mpr ⟨e', he', hc1, hc2⟩
        omega

/-- Decomposition of a tiled map at a point `o` of its domain: the unique
entry containing `o`, with everything before stopping at or before `o` and
everything after starting at or after its stop. -/
theorem tilesB_decomp {m : List (Range × α)} {lo size o : Nat}
    (h : tilesB lo size m = true) (h1 : lo ≤ o) (h2 : o < size) :
    ∃ pre k v post, m = pre ++ (k, v) :: post ∧ k.start ≤ o ∧ o < k.stop ∧
      k.start < k.stop ∧
      (∀ e ∈ pre, (e : Range × α).1.stop ≤ o) ∧
      (∀ e ∈ pre, (e : Range × α).1.start < k.start) ∧
      (∀ e ∈ post, k.stop ≤ (e : Range × α).1.start) := by
  induction m generalizing lo with
  | nil =>
    rw [tilesB, beq_iff_eq] at h
    omega
  | cons e rest ih =>
    obtain ⟨k0, v0⟩ := e
    rw [tilesB, Bool.and_eq_true, Bool.and_eq_true] at h
    obtain ⟨⟨hh1, hh2⟩, h3⟩ := h
    simp only [beq_iff_eq] at hh1
    simp only [decide_eq_true_eq] at hh2
    by_cases hx : o < k0.stop
    · refine ⟨[], k0, v0, rest, rfl, by omega, hx, by omega, ?_, ?_, ?_⟩
      · intro e he; simp at he
      · intro e he; simp at he
      · exact fun e he => (tilesB_bounds h3 e he).1
    · obtain ⟨pre, k, v, post, heq, hc1, hc2, hc3, hp1, hp2, hp3⟩ :=
        ih h3 (by omega)
      have hkmem : (k, v) ∈ rest := by
        rw [heq]; simp
      have hkb : k0.stop ≤ k.start := (tilesB_bounds h3 (k, v) hkmem).1
      refine ⟨(k0, v0) :: pre, k, v, post,
        by rw [heq, List.cons_append], hc1, hc2, hc3, ?_, ?_, hp3⟩
      · intro e he
        rcases List.mem_cons.mp he with rfl | he
        · show k0.stop ≤ o; omega
        · exact hp1 e he
      · intro e he
        rcases List.mem_cons.mp he with rfl | he
        · show k0.start < k.start; omega
        · exact hp2 e he

/-! ## Placement lemmas for the ordered-map operations -/

theorem btRemove_skip {pre l : List (Range × α)} {k : Range}
    (h : ∀ e ∈ pre, (e : Range × α).1 ≠ k) :
    btRemove k (pre ++ l) = ((btRemove k l).1, pre ++ (btRemove k l).2) := by
  induction pre with
  | nil => simp
  | cons e rest ih =>
    obtain ⟨k', v'⟩ := e
    have hne : k ≠ k' := fun hh => h (k', v') (by simp) (hh ▸ rfl)
    rw [List.cons_append, btRemove, if_neg hne, ih (fun e he => h e (by simp [he]))]
    simp

theorem btRemove_cons_self (k : Range) (v : α) (post : List (Range × α)) :
    btRemove k ((k, v) :: post) = (some v, post) := by
  rw [btRemove, if_pos rfl]

theorem btInsert_skip {pre l : List (Range × α)} {kn : Range} {v : α}
    (h : ∀ e ∈ pre, Range.blt kn (e : Range × α).1 = false ∧ kn ≠ e.1) :
    btInsert kn v (pre ++ l) = ((btInsert kn v l).1, pre ++ (btInsert kn v l).2) := by
  induction pre with
  | nil => simp
  | cons e rest ih =>
    obtain ⟨k', v'⟩ := e
    obtain ⟨hb, hne⟩ := h (k', v') (by simp)
    rw [List.cons_append, btInsert, if_neg (by simp [hb]), if_neg hne,
      ih (fun e he => h e (by simp [he]))]
    simp

theorem btInsert_front {l : List (Range × α)} {kn : Range} {v : α}
    (h : ∀ e ∈ l, Range.blt kn (e : Range × α).1 = true) :
    btInsert kn v l = (none, (kn, v) :: l) := by
  cases l with
  | nil => rfl
  | cons e rest =>
    obtain ⟨k', v'⟩ := e
    rw [btInsert, if_pos (h (k', v') (by simp))]

/-! ## The `splitModel` abstraction -/

theorem tilesB_cons_mk (lo size s t : Nat) (v : α) (rest : List (Range × α)) :
    tilesB lo size ((⟨s, t⟩, v) :: rest) =
      ((s == lo) && decide (lo < t) && tilesB t size rest) := rfl

theorem splitModel_skip {pre l : List (Range × α)} {o : Nat}
    (h : ∀ e ∈ pre, ¬((e : Range × α).1.start < o ∧ o < e.1.stop)) :
    splitModel o (pre ++ l) = pre ++ splitModel o l := by
  induction pre with
  | nil => simp
  | cons e rest ih =>
    obtain ⟨k', v'⟩ := e
    rw [List.cons_append, splitModel, if_neg (h (k', v') (by simp)),
      ih (fun e he => h e (by simp [he]))]
    simp

theorem splitModel_id {m : List (Range × α)} {o : Nat}
    (h : ∀ e ∈ m, ¬((e : Range × α).1.start < o ∧ o < e.1.stop)) :
    splitModel o m = m := by
  induction m with
  | nil => rfl
  | cons e rest ih =>
    obtain ⟨k', v'⟩ := e
    rw [splitModel, if_neg (h (k', v') (by simp)),
      ih (fun e he => h e (by simp [he]))]

theorem splitModel_tiles {m : List (Range × α)} {lo size o : Nat}
    (h : tilesB lo size m = true) : tilesB lo size (splitModel o m) = true := by
  induction m generalizing lo with
  | nil => exact h
  | cons e rest ih =>
    obtain ⟨k, v⟩ := e
    rw [tilesB, Bool.and_eq_true, Bool.and_eq_true] at h
    obtain ⟨⟨h1, h2⟩, h3⟩ := h
    simp only [beq_iff_eq] at h1
    simp only [decide_eq_true_eq] at h2
    rw [splitModel]
    by_cases hc : k.start < o ∧ o < k.stop
    · rw [if_pos hc, tilesB_cons_mk, tilesB_cons_mk]
      simp only [Bool.and_eq_true, beq_iff_eq, decide_eq_true_eq]
      refine ⟨⟨?_, ?_⟩, ⟨?_, ?_⟩, h3⟩ <;> first | trivial | omega
    · rw [if_neg hc]
      rw [tilesB]
      simp only [Bool.and_eq_true, beq_iff_eq, decide_eq_true_eq]
      exact ⟨⟨by simpa using h1, by simpa using h2⟩, ih h3⟩

theorem splitModel_noStrict {m : List (Range × α)} {lo size o : Nat}
    (h : tilesB lo size m = true) :
    ∀ e ∈ splitModel o m, ¬((e : Range × α).1.start < o ∧ o < e.1.stop) := by
  induction m generalizing lo with
  | nil => intro e he; simp [splitModel] at he
  | cons e rest ih =>
    obtain ⟨k, v⟩ := e
    rw [tilesB, Bool.and_eq_true, Bool.and_eq_true] at h
    obtain ⟨⟨h1, h2⟩, h3⟩ := h
    simp only [beq_iff_eq] at h1
    simp only [decide_eq_true_eq] at h2
    rw [splitModel]
    by_cases hc : k.start < o ∧ o < k.stop
    · rw [if_pos hc]
      intro e' he'
      rcases List.mem_cons.mp he' with rfl | he'
      · show ¬(k.start < o ∧ o < o); omega
      rcases List.mem_cons.mp he' with rfl | he'
      · show ¬(o < o ∧ o < k.stop); omega
      · have := (tilesB_bounds h3 e' he').1
        omega
    · rw [if_neg hc]
      intro e' he'
      rcases List.mem_cons.mp he' with rfl | he'
      · exact hc
      · exact ih h3 e' he'

theorem splitModel_keeps_noStrict {m : List (Range × α)} {o p : Nat}
    (h : ∀ e ∈ m, ¬((e : Range × α).1.start < p ∧ p < e.1.stop)) :
    ∀ e ∈ splitModel o m, ¬((e : Range × α).1.start < p ∧ p < e.1.stop) := by
  induction m with
  | nil => intro e he; simp [splitModel] at he
  | cons e rest ih =>
    obtain ⟨k, v⟩ := e
    rw [splitModel]
    have hk := h (k, v) (by simp)
    by_cases hc : k.start < o ∧ o < k.stop
    · rw [if_pos hc]
      intro e' he'
      rcases List.mem_cons.mp he' with rfl | he'
      · show ¬(k.start < p ∧ p < o)
        simp only [not_and] at hk ⊢
        intro hh
        have := hk hh
        omega
      rcases List.mem_cons.mp he' with rfl | he'
      · show ¬(o < p ∧ p < k.stop)
        simp only [not_and] at hk ⊢
        intro hh
        have : k.start < p := by omega
        have := hk this
        omega
      · exact h e' (by simp [he'])
    · rw [if_neg hc]
      intro e' he'
      rcases List.mem_cons.mp he' with rfl | he'
      · exact hk
      · exact ih (fun e he => h e (by simp [he])) e' he'

/-! ## Characterization of `split_entry_at` -/

theorem blt_iff (a b : Range) :
    Range.blt a b = true ↔ (a.start < b.start ∨ (a.start = b.start ∧ a.stop < b.stop)) := by
  simp [Range.blt]

theorem blt_false_iff (a b : Range) :
    Range.blt a b = false ↔ ¬(a.start < b.start ∨ (a.start = b.start ∧ a.stop < b.stop)) := by
  rw [Bool.eq_false_iff, ne_eq, blt_iff]

theorem intersects_one (k : Range) (o : Nat) :
    intersects k o 1 = (decide (k.start ≤ o) && decide (o < k.stop)) := by
  rw [Bool.eq_iff_iff]
  simp only [intersects, Bool.and_eq_true, decide_eq_true_eq]
  omega

theorem selModel_one (m : List (Range × α)) (o : Nat) :
    selModel o 1 m = pointFilter m o := by
  rw [selModel, pointFilter]
  exact List.filter_congr (fun e _ => intersects_one e.1 o)

theorem pointFilter_out {m : List (Range × α)} {size p : Nat}
    (h : tilesB 0 size m = true) (hp : size ≤ p) : pointFilter m p = [] := by
  rw [pointFilter, List.filter_eq_nil_iff]
  intro e he
  have := (tilesB_bounds h e he).2
  simp only [Bool.and_eq_true, decide_eq_true_eq, not_and]
  omega

theorem pointFilter_decomp {pre post : List (Range × α)} {k : Range} {v : α} {p : Nat}
    (hk1 : k.start ≤ p) (hk2 : p < k.stop)
    (hpre : ∀ e ∈ pre, (e : Range × α).1.stop ≤ p)
    (hpost : ∀ e ∈ post, k.stop ≤ (e : Range × α).1.start) :
    pointFilter (pre ++ (k, v) :: post) p = [(k, v)] := by
  rw [pointFilter, List.filter_append]
  have h1 : pre.filter (fun e => decide (e.1.start ≤ p) && decide (p < e.1.stop)) = [] := by
    rw [List.filter_eq_nil_iff]
    intro e he
    have := hpre e he
    simp only [Bool.and_eq_true, decide_eq_true_eq, not_and]
    omega
  have h2 : post.filter (fun e => decide (e.1.start ≤ p) && decide (p < e.1.stop)) = [] := by
    rw [List.filter_eq_nil_iff]
    intro e he
    have := hpost e he
    simp only [Bool.and_eq_true, decide_eq_true_eq, not_and]
    omega
  rw [h1, List.filter_cons_of_pos (by simp; omega), h2]
  rfl

theorem split_entry_at_err {m : List (Range × α)} {o : Nat} (hov : U64 ≤ o + 2) :
    split_entry_at m o = .error .overflow := by
  rw [split_entry_at, iwr_err (by omega) (by omega), error_bind]

theorem split_entry_at_ok {m : List (Range × α)} {size o : Nat}
    (h : tilesB 0 size m = true) (hov : o + 2 < U64) :
    split_entry_at m o = .ok (splitModel o m) := by
  have hs := tilesB_mem_lt h
  have hiwr : iter_with_range m o 1 = .ok (pointFilter m o) := by
    rw [iwr_ok hs (by omega) (by omega), selModel_one]
  by_cases hlt : o < size
  · obtain ⟨pre, k, v, post, heq, hc1, hc2, hc3, hp1, hp2, hp3⟩ :=
      tilesB_decomp h (by omega) hlt
    subst heq
    have hpf : pointFilter (pre ++ (k, v) :: post) o = [(k, v)] :=
      pointFilter_decomp hc1 hc2 hp1 hp3
    rw [split_entry_at, hiwr, ok_bind, hpf]
    show splitAtEntry (pre ++ (k, v) :: post) o k = _
    rw [splitAtEntry, if_pos ⟨hc1, hc2⟩]
    by_cases hso : k.start < o
    · rw [if_pos hso]
      have hne : ∀ e ∈ pre, (e : Range × α).1 ≠ k := by
        intro e he heq'
        have h1 := hp1 e he
        rw [heq'] at h1
        omega
      have hrem : btRemove k (pre ++ (k, v) :: post) = (some v, pre ++ post) := by
        rw [btRemove_skip hne, btRemove_cons_self]
      rw [hrem]
      show splitInsert (pre ++ post) o k v = _
      have hpre1 : ∀ e ∈ pre,
          Range.blt ⟨k.start, o⟩ (e : Range × α).1 = false ∧ (⟨k.start, o⟩ : Range) ≠ e.1 := by
        intro e he
        have h2 := hp2 e he
        refine ⟨by rw [blt_false_iff]; simp only [not_or, not_and]; omega, ?_⟩
        intro heq'
        have := congrArg Range.start heq'
        simp only at this
        omega
      have hpost1 : ∀ e ∈ post, Range.blt ⟨k.start, o⟩ (e : Range × α).1 = true := by
        intro e he
        have := hp3 e he
        rw [blt_iff]
        left
        simp only
        omega
      have hins1 : btInsert ⟨k.start, o⟩ v (pre ++ post) =
          (none, pre ++ (⟨k.start, o⟩, v) :: post) := by
        rw [btInsert_skip hpre1, btInsert_front hpost1]
      have hsplit2 : pre ++ (⟨k.start, o⟩, v) :: post =
          (pre ++ [(⟨k.start, o⟩, v)]) ++ post := by
        simp
      have hpre2 : ∀ e ∈ pre ++ [((⟨k.start, o⟩ : Range), v)],
          Range.blt ⟨o, k.stop⟩ (e : Range × α).1 = false ∧ (⟨o, k.stop⟩ : Range) ≠ e.1 := by
        intro e he
        rcases List.mem_append.mp he with he | he
        · have h2 := hp2 e he
          have h1 := hp1 e he
          refine ⟨by rw [blt_false_iff]; simp only [not_or, not_and]; omega, ?_⟩
          intro heq'
          have := congrArg Range.start heq'
          simp only at this
          omega
        · rcases List.mem_singleton.mp he with rfl
          refine ⟨by rw [blt_false_iff]; simp only [not_or, not_and]; omega, ?_⟩
          intro heq'
          have := congrArg Range.start heq'
          simp only at this
          omega
      have hpost2 : ∀ e ∈ post, Range.blt ⟨o, k.stop⟩ (e : Range × α).1 = true := by
        intro e he
        have := hp3 e he
        rw [blt_iff]
        left
        simp only
        omega
      have hins2 : btInsert ⟨o, k.stop⟩ v (pre ++ (⟨k.start, o⟩, v) :: post) =
          (none, pre ++ (⟨k.start, o⟩, v) :: (⟨o, k.stop⟩, v) :: post) := by
        rw [hsplit2, btInsert_skip hpre2, btInsert_front hpost2]
        simp
      have hprens : ∀ e ∈ pre, ¬((e : Range × α).1.start < o ∧ o < e.1.stop) := by
        intro e he
        have := hp1 e he
        omega
      rw [splitInsert, hins1]
      dsimp only
      rw [hins2]
      dsimp only
      rw [Option.isNone_none, if_pos rfl, if_pos rfl]
      rw [splitModel_skip hprens, splitModel, if_pos ⟨hso, hc2⟩]
    · rw [if_neg hso]
      show Except.ok (pre ++ (k, v) :: post) = .ok (splitModel o (pre ++ (k, v) :: post))
      rw [splitModel_id]
      intro e he
      rcases List.mem_append.mp he with he | he
      · have := hp1 e he
        omega
      rcases List.mem_cons.mp he with rfl | he
      · show ¬(k.start < o ∧ o < k.stop)
        tauto
      · have := hp3 e he
        omega
  · have hpf : pointFilter m o = [] := pointFilter_out h (by omega)
    rw [split_entry_at, hiwr, ok_bind, hpf]
    show Except.ok m = .ok (splitModel o m)
    rw [splitModel_id]
    intro e he
    have := (tilesB_bounds h e he).2
    omega

/-! ## Characterization of `iter_mut` -/

theorem tilesB_cons (lo size : Nat) (e : Range × α) (rest : List (Range × α)) :
    tilesB lo size (e :: rest) =
      ((e.1.start == lo) && decide (lo < e.1.stop) && tilesB e.1.stop size rest) := by
  obtain ⟨k, v⟩ := e
  rfl

theorem tilesB_map_value {m : List (Range × α)} {lo size : Nat}
    (g : Range × α → Range × α) (hg : ∀ e, (g e).1 = (e : Range × α).1)
    (h : tilesB lo size m = true) : tilesB lo size (m.map g) = true := by
  induction m generalizing lo with
  | nil => exact h
  | cons e rest ih =>
    rw [tilesB_cons, Bool.and_eq_true, Bool.and_eq_true] at h
    obtain ⟨⟨h1, h2⟩, h3⟩ := h
    rw [List.map_cons, tilesB_cons, hg]
    simp only [Bool.and_eq_true]
    exact ⟨⟨h1, h2⟩, ih h3⟩

theorem writeModel_tiles {m : List (Range × α)} {lo size o len : Nat} {f : α → α}
    (h : tilesB lo size m = true) : tilesB lo size (writeModel o len f m) = true := by
  refine tilesB_map_value _ (fun e => ?_) h
  by_cases hc : intersects e.1 o len = true <;> simp [writeModel, hc]

theorem mutateAll_tiles {m : List (Range × α)} {lo size : Nat} {f : α → α}
    (h : tilesB lo size m = true) : tilesB lo size (mutateAll f m) = true :=
  tilesB_map_value _ (fun _ => rfl) h

theorem processMut_ok {m : List (Range × α)} {o len : Nat} {f : α → α}
    (hs : ∀ e ∈ m, (e : Range × α).1.start < e.1.stop) (hl : 0 < len)
    (hov : o + len < U64)
    (hno : ∀ e ∈ m, ¬((e : Range × α).1.start < o ∧ o < e.1.stop))
    (hno2 : ∀ e ∈ m, ¬((e : Range × α).1.start < o + len ∧ o + len < e.1.stop)) :
    processMut o len ⟨0, o + 1⟩ ⟨o + len, o + len + 1⟩ f m =
      .ok (writeModel o len f m, (selModel o len m).map Prod.snd) := by
  induction m with
  | nil => rfl
  | cons e rest ih =>
    obtain ⟨k, v⟩ := e
    have hk : k.start < k.stop := hs (k, v) (by simp)
    have ihr := ih (fun e he => hs e (by simp [he])) (fun e he => hno e (by simp [he]))
      (fun e he => hno2 e (by simp [he]))
    rw [processMut]
    by_cases hw : (Range.ble ⟨0, o + 1⟩ k && Range.blt k ⟨o + len, o + len + 1⟩) = true
    · rw [if_pos hw, overlaps_ok hl hov, ok_bind]
      by_cases hT : (decide (o < k.stop) && decide (k.start ≤ o + len)) = true
      · have hint : intersects k o len = true := by
          rw [← window_overlaps_eq hk hl, hw, hT]
          rfl
        have hcomp : o < k.stop ∧ k.start < o + len := by
          have := hint
          simp only [intersects, Bool.and_eq_true, decide_eq_true_eq] at this
          exact ⟨this.1.2, this.2⟩
        have hassert : o ≤ k.start ∧ k.stop ≤ o + len := by
          have hn : ¬(k.start < o ∧ o < k.stop) := hno (k, v) (by simp)
          have hn2 : ¬(k.start < o + len ∧ o + len < k.stop) := hno2 (k, v) (by simp)
          omega
        rw [if_pos hT, if_pos hassert, ihr, ok_bind]
        simp [writeModel, selModel, hint]
      · have hint : intersects k o len = false := by
          rw [← window_overlaps_eq hk hl, hw, Bool.true_and]
          exact Bool.eq_false_iff.mpr hT
        rw [if_neg hT, ihr, ok_bind]
        simp [writeModel, selModel, hint]
    · rw [if_neg hw, ihr, ok_bind]
      have hint : intersects k o len = false := by
        rw [← window_overlaps_eq hk hl, Bool.eq_false_iff.mpr hw, Bool.false_and]
      simp [writeModel, selModel, hint]

theorem processMut_out {m : List (Range × α)} {o len : Nat} {lo hi : Range} {f : α → α}
    (h : ∀ e ∈ m, (Range.ble lo (e : Range × α).1 && Range.blt e.1 hi) = false) :
    processMut o len lo hi f m = .ok (m, []) := by
  induction m with
  | nil => rfl
  | cons e rest ih =>
    obtain ⟨k, v⟩ := e
    rw [processMut, if_neg (by simp [h (k, v) (by simp)]),
      ih (fun e he => h e (by simp [he])), ok_bind]

theorem iter_mut_zero (m : List (Range × α)) (o : Nat) (f : α → α) :
    iter_mut m o 0 f = .ok (m, []) := by
  rw [iter_mut, if_neg (by omega), ok_bind]
  show (Range.range o 0 >>= fun sent => processMut o 0 sent.1 sent.2 f m) = _
  rw [Range.range, if_pos rfl, ok_bind]
  show processMut o 0 ⟨0, 1⟩ ⟨0, 1⟩ f m = _
  exact processMut_out (fun e _ => ble_blt_asymm ⟨0, 1⟩ e.1)

theorem iter_mut_ok {m : List (Range × α)} {size o len : Nat} {f : α → α}
    (h : tilesB 0 size m = true) (hl : 0 < len) (hov : o + len + 2 < U64) :
    iter_mut m o len f =
      .ok (writeModel o len f (splitModel (o + len) (splitModel o m)),
        (selModel o len (splitModel (o + len) (splitModel o m))).map Prod.snd) := by
  have h1 : split_entry_at m o = .ok (splitModel o m) := split_entry_at_ok h (by omega)
  have ht1 : tilesB 0 size (splitModel o m) = true := splitModel_tiles h
  have h2 : split_entry_at (splitModel o m) (o + len) =
      .ok (splitModel (o + len) (splitModel o m)) := split_entry_at_ok ht1 (by omega)
  have ht2 : tilesB 0 size (splitModel (o + len) (splitModel o m)) = true :=
    splitModel_tiles ht1
  rw [iter_mut, if_pos hl]
  simp only [h1, ok_bind, checkedAdd_ok (show o + len < U64 by omega), h2,
    range_sent hl (show o + len + 1 < U64 by omega)]
  exact processMut_ok (tilesB_mem_lt ht2) hl (by omega)
    (splitModel_keeps_noStrict (splitModel_noStrict h)) (splitModel_noStrict ht1)

theorem iter_mut_err {m : List (Range × α)} {size o len : Nat} {f : α → α}
    (h : tilesB 0 size m = true) (hl : 0 < len) (hov : U64 ≤ o + len + 2) :
    iter_mut m o len f = .error .overflow := by
  rw [iter_mut, if_pos hl]
  by_cases h1 : U64 ≤ o + 2
  · rw [split_entry_at_err h1]
    rfl
  · have h1' : split_entry_at m o = .ok (splitModel o m) := split_entry_at_ok h (by omega)
    simp only [h1', ok_bind]
    by_cases h2 : U64 ≤ o + len
    · rw [checkedAdd_err h2]
      rfl
    · simp only [checkedAdd_ok (show o + len < U64 by omega), ok_bind]
      rw [split_entry_at_err (show U64 ≤ (o + len) + 2 by omega)]
      rfl

/-! ## Point queries -/

theorem iter_point {m : List (Range × α)} {p : Nat}
    (hs : ∀ e ∈ m, (e : Range × α).1.start < e.1.stop) (h : p + 2 < U64) :
    iter m p 1 = .ok (pointVal m p) := by
  rw [iter_ok hs (by omega) (by omega), selModel_one]
  rfl

theorem pointFilter_cons (e : Range × α) (rest : List (Range × α)) (p : Nat) :
    pointFilter (e :: rest) p =
      (if e.1.start ≤ p ∧ p < e.1.stop then [e] else []) ++ pointFilter rest p := by
  rw [pointFilter, List.filter_cons]
  by_cases hc : e.1.start ≤ p ∧ p < e.1.stop
  · rw [if_pos (by simp [hc.1, hc.2]), if_pos hc]
    rfl
  · rw [if_neg (by simp only [Bool.and_eq_true, decide_eq_true_eq]; exact hc), if_neg hc]
    rfl

theorem pointVal_cons (e : Range × α) (rest : List (Range × α)) (p : Nat) :
    pointVal (e :: rest) p =
      (if e.1.start ≤ p ∧ p < e.1.stop then [e.2] else []) ++ pointVal rest p := by
  rw [pointVal, pointFilter_cons, List.map_append]
  congr 1
  by_cases hc : e.1.start ≤ p ∧ p < e.1.stop <;> simp [hc]

/-- Splitting an entry never changes any single-point query result. -/
theorem pointVal_splitModel (o p : Nat) (m : List (Range × α)) :
    pointVal (splitModel o m) p = pointVal m p := by
  induction m with
  | nil => rfl
  | cons e rest ih =>
    obtain ⟨k, v⟩ := e
    rw [splitModel]
    by_cases hc : k.start < o ∧ o < k.stop
    · rw [if_pos hc, pointVal_cons, pointVal_cons, pointVal_cons]
      by_cases h1 : k.start ≤ p ∧ p < o
      · rw [if_pos h1, if_neg (by omega : ¬((o : Nat) ≤ p ∧ p < k.stop)),
          if_pos (by omega : k.start ≤ p ∧ p < k.stop)]
        simp
      · rw [if_neg h1]
        by_cases h2 : (o : Nat) ≤ p ∧ p < k.stop
        · rw [if_pos h2, if_pos (by omega : k.start ≤ p ∧ p < k.stop)]
          simp
        · rw [if_neg h2, if_neg (by omega : ¬(k.start ≤ p ∧ p < k.stop))]
          simp
    · rw [if_neg hc, pointVal_cons, pointVal_cons, ih]

theorem writeModel_cons (o len : Nat) (f : α → α) (e : Range × α)
    (rest : List (Range × α)) :
    writeModel o len f (e :: rest) =
      (if intersects e.1 o len then (e.1, f e.2) else e) :: writeModel o len f rest := by
  rw [writeModel, List.map_cons, writeModel]

/-- A write through `iter_mut` seen at a single point: the containing
entries keep their key, and their value is transformed exactly when the key
truly intersects the write window. -/
theorem pointVal_writeModel (o len p : Nat) (f : α → α) (m : List (Range × α)) :
    pointVal (writeModel o len f m) p =
      (pointFilter m p).map (fun e => if intersects e.1 o len then f e.2 else e.2) := by
  induction m with
  | nil => rfl
  | cons e rest ih =>
    obtain ⟨k, v⟩ := e
    rw [writeModel_cons, pointVal_cons, pointFilter_cons, List.map_append, ih]
    congr 1
    by_cases hi : intersects k o len = true <;>
      by_cases hcp : k.start ≤ p ∧ p < k.stop <;>
        simp [hi, hcp]

/-- The filter of truly-intersecting entries commutes with the write. -/
theorem filter_writeModel (o len : Nat) (f : α → α) (m : List (Range × α)) :
    (writeModel o len f m).filter (fun e => intersects e.1 o len) =
      (m.filter (fun e => intersects e.1 o len)).map (fun e => (e.1, f e.2)) := by
  induction m with
  | nil => rfl
  | cons e rest ih =>
    obtain ⟨k, v⟩ := e
    rw [writeModel_cons]
    by_cases hi : intersects k o len = true
    · rw [if_pos hi]
      rw [List.filter_cons_of_pos (by simpa using hi), List.filter_cons_of_pos (by simpa using hi),
        List.map_cons, ih]
    · rw [if_neg hi]
      rw [List.filter_cons_of_neg (by simpa using hi), List.filter_cons_of_neg (by simpa using hi),
        ih]

theorem tilesB_pairwise_start {m : List (Range × α)} {lo size : Nat}
    (h : tilesB lo size m = true) :
    List.Pairwise (fun a b : Range × α => a.1.start < b.1.start) m := by
  induction m generalizing lo with
  | nil => exact List.Pairwise.nil
  | cons e rest ih =>
    rw [tilesB_cons, Bool.and_eq_true, Bool.and_eq_true] at h
    obtain ⟨⟨h1, h2⟩, h3⟩ := h
    simp only [beq_iff_eq] at h1
    simp only [decide_eq_true_eq] at h2
    refine List.Pairwise.cons (fun b hb => ?_) (ih h3)
    have := (tilesB_bounds h3 b hb).1
    omega

theorem intersects_zero_len (k : Range) (o : Nat) : intersects k o 0 = false := by
  simp [intersects]

theorem splitModel_cases (o : Nat) (m : List (Range × α)) :
    splitModel o m = m ∨ (splitModel o m).length = m.length + 1 := by
  induction m with
  | nil => exact Or.inl rfl
  | cons e rest ih =>
    obtain ⟨k, v⟩ := e
    rw [splitModel]
    by_cases hc : k.start < o ∧ o < k.stop
    · rw [if_pos hc]
      right
      simp
    · rw [if_neg hc]
      rcases ih with ih | ih
      · left; rw [ih]
      · right; simp [ih]

/-! ## The partition invariant along every reachable state -/

theorem tiles_of_reach {size : Nat} {init : α} {m : List (Range × α)}
    (h : Reach size init m) : tilesB 0 size m = true := by
  induction h with
  | base =>
    rw [RangeMap.new]
    by_cases hs : 0 < size
    · rw [if_pos hs, tilesB_cons_mk]
      simp [tilesB, hs]
    · rw [if_neg hs, tilesB]
      simp only [beq_iff_eq]
      omega
  | stepSplit m o m' hr heq ih =>
    by_cases hov : U64 ≤ o + 2
    · rw [split_entry_at_err hov] at heq
      cases heq
    · rw [split_entry_at_ok ih (by omega)] at heq
      cases heq
      exact splitModel_tiles ih
  | stepMut m o len f m' vs hr heq ih =>
    rcases Nat.eq_zero_or_pos len with rfl | hl
    · rw [iter_mut_zero] at heq
      cases heq
      exact ih
    · by_cases hov : U64 ≤ o + len + 2
      · rw [iter_mut_err ih hl hov] at heq
        cases heq
      · rw [iter_mut_ok ih hl (by omega)] at heq
        cases heq
        exact writeModel_tiles (splitModel_tiles (splitModel_tiles ih))
  | stepMutAll m f hr ih => exact mutateAll_tiles ih

/-! ## Claim theorems -/

/-- C1 (confirmed).  Partition invariant: on every state reachable from
`new(size, init)` by any sequence of `iter` (stateless, hence contributing
no step), `iter_mut`, `iter_mut_all` and `split_entry_at` operations, the
stored keys all satisfy `stop > start`, are pairwise non-overlapping (each
one ends at or before the next begins, in key order), and their union is
exactly `[0, size)` with no gaps. -/
theorem partition_invariant {size : Nat} {init : α} {m : List (Range × α)}
    (h : Reach size init m) :
    (∀ e ∈ m, (e : Range × α).1.start < e.1.stop) ∧
    List.Pairwise (fun a b : Range × α => a.1.stop ≤ b.1.start) m ∧
    (∀ x : Nat, x < size ↔ ∃ e ∈ m, (e : Range × α).1.start ≤ x ∧ x < e.1.stop) := by
  have ht := tiles_of_reach h
  refine ⟨tilesB_mem_lt ht, tilesB_pairwise ht, fun x => ?_⟩
  have := tilesB_cover ht x
  simpa using this

/-- Witness for C1 at a concrete reachable state. -/
theorem partition_invariant_witness :
    (∀ e ∈ RangeMap.new 3 (7 : Nat), (e : Range × Nat).1.start < e.1.stop) ∧
    List.Pairwise (fun a b : Range × Nat => a.1.stop ≤ b.1.start) (RangeMap.new 3 7) ∧
    (∀ x : Nat, x < 3 ↔
      ∃ e ∈ RangeMap.new 3 (7 : Nat), (e : Range × Nat).1.start ≤ x ∧ x < e.1.stop) :=
  partition_invariant Reach.base

/-- C6 (confirmed).  The internal panics — the `assert!(old.is_none())`
checks of the two split inserts, the `remove(..).unwrap()`, the found-range
sanity assert, and the post-split containment assert of `iter_mut` — never
fire on any state reachable by the public operations: every run either
completes or aborts with the arithmetic-overflow panic, never with an
assertion failure. -/
theorem internal_assertions_hold {size : Nat} {init : α} {m : List (Range × α)}
    (h : Reach size init m) :
    (∀ o : Nat, split_entry_at m o ≠ .error .assertFail) ∧
    (∀ (o len : Nat) (f : α → α), iter_mut m o len f ≠ .error .assertFail) := by
  have ht := tiles_of_reach h
  constructor
  · intro o
    by_cases hov : U64 ≤ o + 2
    · rw [split_entry_at_err hov]
      simp
    · rw [split_entry_at_ok ht (by omega)]
      simp
  · intro o len f
    rcases Nat.eq_zero_or_pos len with rfl | hl
    · rw [iter_mut_zero]
      simp
    · by_cases hov : U64 ≤ o + len + 2
      · rw [iter_mut_err ht hl hov]
        simp
      · rw [iter_mut_ok ht hl (by omega)]
        simp

/-- Witness for C6 at a concrete reachable state. -/
theorem internal_assertions_hold_witness :
    (∀ o : Nat, split_entry_at (RangeMap.new 2 (0 : Nat)) o ≠ .error .assertFail) ∧
    (∀ (o len : Nat) (f : Nat → Nat),
      iter_mut (RangeMap.new 2 (0 : Nat)) o len f ≠ .error .assertFail) :=
  internal_assertions_hold Reach.base

/-- C5 (confirmed).  Zero-length no-op: for every state and every offset
(also at or past the domain edge), `iter(offset, 0)` yields the empty
sequence, `iter_mut(offset, 0)` yields the empty sequence, performs no
split and leaves the map unchanged, and `overlaps(range, offset, 0)` is
false for every range. -/
theorem zero_length_noop (m : List (Range × α)) (o : Nat) (f : α → α) (r : Range) :
    iter m o 0 = .ok [] ∧ iter_mut m o 0 f = .ok (m, []) ∧
    Range.overlaps r o 0 = .ok false :=
  ⟨iter_zero m o, iter_mut_zero m o f, by rw [Range.overlaps, if_pos rfl]⟩

/-- C4 (confirmed).  Split idempotence and cardinality, for every state
satisfying the partition invariant: splitting twice at the same offset is
the same computation as splitting once (in particular the stored partition,
and hence every query result, is identical); a completed split returns
either the unchanged map or a map with exactly one more entry; and a
completed split at an existing boundary (`offset = 0`, the start of a
stored range, or at/past the domain edge) returns the map unchanged. -/
theorem split_idempotent_card {m : List (Range × α)} {size o : Nat}
    (h : tilesB 0 size m = true) :
    ((split_entry_at m o >>= fun m1 => split_entry_at m1 o) = split_entry_at m o) ∧
    (∀ m', split_entry_at m o = .ok m' → m' = m ∨ m'.length = m.length + 1) ∧
    (∀ m', split_entry_at m o = .ok m' →
      (size ≤ o ∨ o = 0 ∨ ∃ e ∈ m, (e : Range × α).1.start = o) → m' = m) := by
  refine ⟨?_, ?_, ?_⟩
  · by_cases hov : U64 ≤ o + 2
    · rw [split_entry_at_err hov]
      rfl
    · rw [split_entry_at_ok h (by omega), ok_bind,
        split_entry_at_ok (splitModel_tiles h) (by omega),
        splitModel_id (splitModel_noStrict h)]
  · intro m' heq
    by_cases hov : U64 ≤ o + 2
    · rw [split_entry_at_err hov] at heq
      cases heq
    · rw [split_entry_at_ok h (by omega)] at heq
      cases heq
      exact splitModel_cases o m
  · intro m' heq hb
    by_cases hov : U64 ≤ o + 2
    · rw [split_entry_at_err hov] at heq
      cases heq
    · rw [split_entry_at_ok h (by omega)] at heq
      cases heq
      apply splitModel_id
      intro e he
      rcases hb with hb | hb | ⟨e', he', hb⟩
      · have := (tilesB_bounds h e he).2
        omega
      · omega
      · intro hcon
        obtain ⟨hc1, hc2⟩ := hcon
        have hKe : e.1.start < e.1.stop := tilesB_mem_lt h e he
        have hKe' : e'.1.start < e'.1.stop := tilesB_mem_lt h e' he'
        have hne : e ≠ e' := by
          intro hh
          rw [hh] at hc1
          omega
        have hsym : List.Pairwise
            (fun a b : Range × α => a.1.stop ≤ b.1.start ∨ b.1.stop ≤ a.1.start) m :=
          (tilesB_pairwise h).imp (fun hab => Or.inl hab)
        have hrel := List.Pairwise.forall
          (fun _ _ hab => hab.symm) hsym he he' hne
        rcases hrel with hrel | hrel <;> omega

/-- Witness for C4 at a concrete valid state. -/
theorem split_idempotent_card_witness :
    ((split_entry_at (RangeMap.new 2 (0 : Nat)) 1 >>= fun m1 => split_entry_at m1 1) =
      split_entry_at (RangeMap.new 2 (0 : Nat)) 1) ∧
    (∀ m', split_entry_at (RangeMap.new 2 (0 : Nat)) 1 = .ok m' →
      m' = RangeMap.new 2 (0 : Nat) ∨ m'.length = (RangeMap.new 2 (0 : Nat)).length + 1) ∧
    (∀ m', split_entry_at (RangeMap.new 2 (0 : Nat)) 1 = .ok m' →
      (2 ≤ 1 ∨ 1 = 0 ∨ ∃ e ∈ RangeMap.new 2 (0 : Nat), (e : Range × Nat).1.start = 1) →
      m' = RangeMap.new 2 (0 : Nat)) :=
  @split_idempotent_card Nat (RangeMap.new 2 0) 2 1 (by decide)

/-- C7 counterexample.  The claim promises an empty sequence for every
`p ≥ s`, but at `s = 0`, `p = 2^64 - 2` the sentinel computation
`offset + len + 1` overflows `u64` and the query aborts instead of
returning `.ok []` (under the overflow-checking semantics the spec itself
prescribes). -/
theorem initial_uniformity_cex :
    iter (RangeMap.new 0 (0 : Nat)) (2 ^ 64 - 2) 1 = .error .overflow := rfl

/-- C7 (corrected).  Construction and initial uniformity, amended with the
proviso that the point query's sentinel arithmetic stays within `u64`
(`p + 2 < 2^64`): `new` is empty for `size = 0` and a single entry
`{0, size} -> init` otherwise; on the fresh map a point query in the domain
returns exactly `[init]` and a point query at or past the domain edge
returns `[]`. -/
theorem initial_uniformity (size : Nat) (init : α) (p : Nat) (h : p + 2 < U64) :
    RangeMap.new 0 init = ([] : List (Range × α)) ∧
    (0 < size → RangeMap.new size init = [(⟨0, size⟩, init)]) ∧
    (p < size → iter (RangeMap.new size init) p 1 = .ok [init]) ∧
    (size ≤ p → iter (RangeMap.new size init) p 1 = .ok []) := by
  refine ⟨by rw [RangeMap.new, if_neg (by omega)],
    fun hs => by rw [RangeMap.new, if_pos hs], fun hp => ?_, fun hp => ?_⟩
  · have h0 : 0 < size := by omega
    rw [RangeMap.new, if_pos h0]
    rw [iter_ok (by intro e he; rcases List.mem_singleton.mp he with rfl; simpa using h0)
      (by omega) (by omega)]
    have hint : intersects ⟨0, size⟩ p 1 = true := by
      simp only [intersects, Bool.and_eq_true, decide_eq_true_eq]
      omega
    simp [selModel, hint]
  · rcases Nat.eq_zero_or_pos size with rfl | h0
    · rw [RangeMap.new, if_neg (by omega)]
      rw [iter_ok (by intro e he; simp at he) (by omega) (by omega)]
      rfl
    · rw [RangeMap.new, if_pos h0]
      rw [iter_ok (by intro e he; rcases List.mem_singleton.mp he with rfl; simpa using h0)
        (by omega) (by omega)]
      have hint : intersects ⟨0, size⟩ p 1 = false := by
        simp only [intersects]
        simp only [Bool.and_eq_true, decide_eq_true_eq, Bool.eq_false_iff, ne_eq, not_and]
        omega
      simp [selModel, hint]

/-- Witness for C7 (amended) at concrete inputs. -/
theorem initial_uniformity_witness :
    RangeMap.new 0 (7 : Nat) = ([] : List (Range × Nat)) ∧
    (0 < 5 → RangeMap.new 5 (7 : Nat) = [(⟨0, 5⟩, 7)]) ∧
    (3 < 5 → iter (RangeMap.new 5 (7 : Nat)) 3 1 = .ok [7]) ∧
    (5 ≤ 3 → iter (RangeMap.new 5 (7 : Nat)) 3 1 = .ok []) :=
  initial_uniformity 5 7 3 (by decide)

/-- C8 (confirmed).  Overflow aborts: any `iter` or `iter_mut` query on a
`u64` offset whose `offset + length` exceeds the `u64` range panics
(models the checked addition / debug overflow check) instead of returning
a sequence, clamping, or wrapping. -/
theorem overflow_aborts (m : List (Range × α)) (f : α → α) (o len : Nat)
    (ho : o < U64) (h : U64 ≤ o + len) :
    (∃ e, iter m o len = .error e) ∧ (∃ e, iter_mut m o len f = .error e) := by
  have hl : 0 < len := by omega
  constructor
  · exact ⟨.overflow, iter_err hl (by omega)⟩
  · cases hsp : split_entry_at m o with
    | error e =>
      refine ⟨e, ?_⟩
      rw [iter_mut, if_pos hl, hsp]
      rfl
    | ok ma =>
      refine ⟨.overflow, ?_⟩
      rw [iter_mut, if_pos hl]
      simp only [hsp, ok_bind, checkedAdd_err h]
      rfl

/-- Witness for C8 at concrete inputs. -/
theorem overflow_aborts_witness :
    (∃ e, iter (RangeMap.new 1 (0 : Nat)) (2 ^ 64 - 1) 1 = .error e) ∧
    (∃ e, iter_mut (RangeMap.new 1 (0 : Nat)) (2 ^ 64 - 1) 1 (fun x => x) = .error e) :=
  overflow_aborts (RangeMap.new 1 0) (fun x => x) (2 ^ 64 - 1) 1 (by decide) (by decide)

/-- C9 counterexample.  At `size = 1`, `offset = 2^64 - 2`, `len = 1` the
claim's hypotheses hold (`offset ≥ size` and `offset + len = 2^64 - 1`
does not overflow), yet the operation aborts in `split_entry_at`'s
sentinel arithmetic (`offset + 1 + 1` overflows) instead of yielding an
empty sequence with the map unchanged. -/
theorem out_of_domain_mut_cex :
    iter_mut (RangeMap.new 1 (0 : Nat)) (2 ^ 64 - 2) 1 (fun x => x) =
      .error .overflow := rfl

/-- C9 (corrected).  Out-of-domain mutation is a no-op, amended with the
proviso that the boundary-split sentinel arithmetic stays within `u64`
(`offset + len + 2 < 2^64` instead of merely `offset + len` not
overflowing): for every valid state and `offset ≥ size`, `iter_mut` yields
the empty sequence, performs no split, and leaves the map unchanged. -/
theorem out_of_domain_mut {m : List (Range × α)} {size o len : Nat} {f : α → α}
    (h : tilesB 0 size m = true) (hso : size ≤ o) (hov : o + len + 2 < U64) :
    iter_mut m o len f = .ok (m, []) := by
  rcases Nat.eq_zero_or_pos len with rfl | hl
  · exact iter_mut_zero m o f
  · rw [iter_mut_ok h hl hov]
    have hid1 : splitModel o m = m := splitModel_id (fun e he => by
      have := (tilesB_bounds h e he).2
      omega)
    rw [hid1]
    have hid2 : splitModel (o + len) m = m := splitModel_id (fun e he => by
      have := (tilesB_bounds h e he).2
      omega)
    rw [hid2]
    have hnint : ∀ e ∈ m, intersects (e : Range × α).1 o len = false := by
      intro e he
      have := (tilesB_bounds h e he).2
      simp only [intersects, Bool.and_eq_true, decide_eq_true_eq, Bool.eq_false_iff,
        ne_eq, not_and]
      omega
    have hw : writeModel o len f m = m := by
      rw [writeModel]
      have : ∀ e ∈ m,
          (if intersects (e : Range × α).1 o len then (e.1, f e.2) else e) = e := by
        intro e he
        rw [hnint e he]
        simp
      rw [List.map_congr_left this]
      simp
    have hsel : selModel o len m = [] := by
      rw [selModel, List.filter_eq_nil_iff]
      intro e he
      simp [hnint e he]
    rw [hw, hsel]
    rfl

/-- Witness for C9 (amended) at concrete inputs. -/
theorem out_of_domain_mut_witness :
    iter_mut (RangeMap.new 2 (5 : Nat)) 3 1 (fun x => x) = .ok (RangeMap.new 2 5, []) :=
  @out_of_domain_mut Nat (RangeMap.new 2 5) 2 3 1 (fun x => x) (by decide) (by decide) (by decide)

/-- C3 counterexample.  At the state `new 1 0` the stored range `{0, 1}`
truly intersects the query `[0, 2^64 - 1)` (whose `offset + len` does not
overflow), yet `iter` aborts in the sentinel computation
`offset + len + 1` instead of yielding the intersecting value. -/
theorem exact_overlap_cex :
    ((⟨0, 1⟩ : Range), (0 : Nat)) ∈ RangeMap.new 1 (0 : Nat) ∧
    intersects ⟨0, 1⟩ 0 (2 ^ 64 - 1) = true ∧
    iter (RangeMap.new 1 (0 : Nat)) 0 (2 ^ 64 - 1) = .error .overflow :=
  ⟨by decide, by decide, rfl⟩

/-- C3 (corrected).  Exact overlap iteration, amended with the proviso
that the sentinel arithmetic stays within `u64`
(`offset + len + 1 < 2^64`): on a valid state with `len > 0`, the
boolean `intersects` test coincides with true non-empty intersection, the
sentinel window of `Range::range` contains every truly intersecting stored
range (superset, no false negatives), `iter` yields exactly the values of
the truly intersecting ranges in ascending start order (no mutation or
splitting; `iter` does not touch the map), and merely touching ranges
(`stop = offset` or `start = offset + len`) are never yielded. -/
theorem exact_overlap_iteration {m : List (Range × α)} {size o len : Nat}
    (h : tilesB 0 size m = true) (hl : 0 < len) (hov : o + len + 1 < U64) :
    (∀ e ∈ m, intersects (e : Range × α).1 o len = true ↔
      ∃ x : Nat, (e.1.start ≤ x ∧ x < e.1.stop) ∧ (o ≤ x ∧ x < o + len)) ∧
    Range.range o len = .ok (⟨0, o + 1⟩, ⟨o + len, o + len + 1⟩) ∧
    (∀ e ∈ m, intersects (e : Range × α).1 o len = true →
      (Range.ble ⟨0, o + 1⟩ e.1 && Range.blt e.1 ⟨o + len, o + len + 1⟩) = true) ∧
    iter m o len = .ok ((m.filter (fun e => intersects e.1 o len)).map Prod.snd) ∧
    List.Pairwise (fun a b : Range × α => a.1.start < b.1.start)
      (m.filter (fun e => intersects e.1 o len)) ∧
    (∀ e ∈ m, (e.1.stop = o ∨ e.1.start = o + len) →
      intersects (e : Range × α).1 o len = false) := by
  refine ⟨fun e he => ?_, range_sent hl hov,
    fun e he hi => intersects_window (tilesB_mem_lt h e he) hi,
    iter_ok (tilesB_mem_lt h) hl hov,
    (tilesB_pairwise_start h).sublist (List.filter_sublist _),
    fun e he hd => ?_⟩
  · have hk := tilesB_mem_lt h e he
    constructor
    · intro hi
      simp only [intersects, Bool.and_eq_true, decide_eq_true_eq] at hi
      exact ⟨max o e.1.start, by omega, by omega⟩
    · rintro ⟨x, ⟨hx1, hx2⟩, hx3, hx4⟩
      simp only [intersects, Bool.and_eq_true, decide_eq_true_eq]
      omega
  · simp only [intersects, Bool.and_eq_true, decide_eq_true_eq, Bool.eq_false_iff,
      ne_eq, not_and]
    omega

/-- Witness for C3 (amended) at concrete inputs. -/
theorem exact_overlap_iteration_witness :
    (∀ e ∈ RangeMap.new 4 (0 : Nat), intersects (e : Range × Nat).1 1 2 = true ↔
      ∃ x : Nat, (e.1.start ≤ x ∧ x < e.1.stop) ∧ (1 ≤ x ∧ x < 1 + 2)) ∧
    Range.range 1 2 = .ok (⟨0, 1 + 1⟩, ⟨1 + 2, 1 + 2 + 1⟩) ∧
    (∀ e ∈ RangeMap.new 4 (0 : Nat), intersects (e : Range × Nat).1 1 2 = true →
      (Range.ble ⟨0, 1 + 1⟩ e.1 && Range.blt e.1 ⟨1 + 2, 1 + 2 + 1⟩) = true) ∧
    iter (RangeMap.new 4 (0 : Nat)) 1 2 =
      .ok (((RangeMap.new 4 (0 : Nat)).filter (fun e => intersects e.1 1 2)).map Prod.snd) ∧
    List.Pairwise (fun a b : Range × Nat => a.1.start < b.1.start)
      ((RangeMap.new 4 (0 : Nat)).filter (fun e => intersects e.1 1 2)) ∧
    (∀ e ∈ RangeMap.new 4 (0 : Nat), (e.1.stop = 1 ∨ e.1.start = 1 + 2) →
      intersects (e : Range × Nat).1 1 2 = false) :=
  @exact_overlap_iteration Nat (RangeMap.new 4 0) 4 1 2 (by decide) (by decide) (by decide)

/-- C2 counterexample.  Write precision fails for window points past the
domain edge: on `new 1 0`, setting every value in `[0, 2)` to `1`
completes, yet the point `1 ∈ [0, 2)` then queries to the empty sequence,
not to `[1]` (exactly as the spec's own Scenario C shows). -/
theorem write_precision_cex :
    iter_mut (RangeMap.new 1 (0 : Nat)) 0 2 (fun _ => 1) =
      .ok ([(⟨0, 1⟩, 1)], [0]) ∧
    iter [((⟨0, 1⟩ : Range), (1 : Nat))] 1 1 = .ok [] :=
  ⟨rfl, rfl⟩

/-- C2 (corrected).  Write precision, amended to restrict the first part
to window points inside the domain: if `iter_mut(offset, len)` completes
with every yielded value set to `w`, then every point of
`[offset, offset+len) ∩ [0, size)` queries to exactly `[w]`, and every
point outside `[offset, offset+len)` queries to exactly what it queried to
before the call (including aborting identically for points whose sentinel
arithmetic overflows). -/
theorem write_precision {m : List (Range × α)} {size o len : Nat} {w : α}
    {m' : List (Range × α)} {vs : List α}
    (h : tilesB 0 size m = true)
    (heq : iter_mut m o len (fun _ => w) = .ok (m', vs)) :
    (∀ p, o ≤ p → p < o + len → p < size → iter m' p 1 = .ok [w]) ∧
    (∀ p, p < o ∨ o + len ≤ p → iter m' p 1 = iter m p 1) := by
  rcases Nat.eq_zero_or_pos len with rfl | hl
  · rw [iter_mut_zero] at heq
    cases heq
    exact ⟨fun p hp1 hp2 hp3 => by omega, fun p hp => rfl⟩
  · by_cases hov : U64 ≤ o + len + 2
    · rw [iter_mut_err h hl hov] at heq
      cases heq
    · rw [iter_mut_ok h hl (by omega)] at heq
      cases heq
      have ht1 : tilesB 0 size (splitModel o m) = true := splitModel_tiles h
      have ht2 : tilesB 0 size (splitModel (o + len) (splitModel o m)) = true :=
        splitModel_tiles ht1
      have hm't : tilesB 0 size
          (writeModel o len (fun _ => w) (splitModel (o + len) (splitModel o m))) = true :=
        writeModel_tiles ht2
      have hno : ∀ e ∈ splitModel (o + len) (splitModel o m),
          ¬((e : Range × α).1.start < o ∧ o < e.1.stop) :=
        splitModel_keeps_noStrict (splitModel_noStrict h)
      have hno2 : ∀ e ∈ splitModel (o + len) (splitModel o m),
          ¬((e : Range × α).1.start < o + len ∧ o + len < e.1.stop) :=
        splitModel_noStrict ht1
      constructor
      · intro p hp1 hp2 hp3
        rw [iter_point (tilesB_mem_lt hm't) (by omega), pointVal_writeModel]
        obtain ⟨pre, k, v, post, heq2, hc1, hc2, hc3, hq1, hq2, hq3⟩ :=
          tilesB_decomp ht2 (Nat.zero_le p) hp3
        rw [heq2, pointFilter_decomp hc1 hc2 hq1 hq3]
        have hint : intersects k o len = true := by
          simp only [intersects, Bool.and_eq_true, decide_eq_true_eq]
          omega
        simp [hint]
      · intro p hp
        by_cases hpo : p + 2 < U64
        · rw [iter_point (tilesB_mem_lt hm't) hpo, iter_point (tilesB_mem_lt h) hpo,
            pointVal_writeModel]
          have hg : ∀ e ∈ pointFilter (splitModel (o + len) (splitModel o m)) p,
              (fun e : Range × α =>
                if intersects e.1 o len then (fun _ : α => w) e.2 else e.2) e =
                Prod.snd e := by
            intro e he
            rw [pointFilter, List.mem_filter] at he
            obtain ⟨hmem, hcond⟩ := he
            simp only [Bool.and_eq_true, decide_eq_true_eq] at hcond
            have hn := hno e hmem
            have hn2 := hno2 e hmem
            have hfalse : intersects e.1 o len = false := by
              simp only [intersects, Bool.and_eq_true, decide_eq_true_eq,
                Bool.eq_false_iff, ne_eq, not_and]
              omega
            simp [hfalse]
          rw [List.map_congr_left hg]
          show Except.ok (pointVal (splitModel (o + len) (splitModel o m)) p) = _
          rw [pointVal_splitModel, pointVal_splitModel]
        · rw [iter_err (by omega) (by omega), iter_err (by omega) (by omega)]

/-- Witness for C2 (amended) at concrete inputs. -/
theorem write_precision_witness :
    (∀ p, 1 ≤ p → p < 1 + 1 → p < 3 →
      iter [((⟨0, 1⟩ : Range), (0 : Nat)), (⟨1, 2⟩, 5), (⟨2, 3⟩, 0)] p 1 = .ok [5]) ∧
    (∀ p, p < 1 ∨ 1 + 1 ≤ p →
      iter [((⟨0, 1⟩ : Range), (0 : Nat)), (⟨1, 2⟩, 5), (⟨2, 3⟩, 0)] p 1 =
        iter (RangeMap.new 3 (0 : Nat)) p 1) :=
  @write_precision Nat (RangeMap.new 3 0) 3 1 1 5
    [(⟨0, 1⟩, 0), (⟨1, 2⟩, 5), (⟨2, 3⟩, 0)] [0] (by decide) rfl

/-- C10 (confirmed).  Mutable iteration order: on a valid state the stored
entries are in strictly ascending `start` order, `iter_mut_all` yields
every stored value in that (ascending key) order, and a completed
`iter_mut(offset, len)` yields the values of the selected (truly
intersecting, post-split) ranges in ascending start order — the same order
as the read-only path. -/
theorem mut_iteration_order {m : List (Range × α)} {size : Nat}
    (h : tilesB 0 size m = true) :
    List.Pairwise (fun a b : Range × α => a.1.start < b.1.start) m ∧
    iter_mut_all m = m.map Prod.snd ∧
    (∀ (o len : Nat) (f : α → α) (m' : List (Range × α)) (vs : List α),
      iter_mut m o len f = .ok (m', vs) →
      List.Pairwise (fun a b : Range × α => a.1.start < b.1.start)
        (m'.filter (fun e => intersects e.1 o len)) ∧
      (m'.filter (fun e => intersects e.1 o len)).map Prod.snd = vs.map f) := by
  refine ⟨tilesB_pairwise_start h, rfl, ?_⟩
  intro o len f m' vs heq
  rcases Nat.eq_zero_or_pos len with rfl | hl
  · rw [iter_mut_zero] at heq
    cases heq
    have hfil : m.filter (fun e => intersects e.1 o 0) = [] := by
      rw [List.filter_eq_nil_iff]
      intro e he
      simp [intersects_zero_len]
    rw [hfil]
    exact ⟨List.Pairwise.nil, rfl⟩
  · by_cases hov : U64 ≤ o + len + 2
    · rw [iter_mut_err h hl hov] at heq
      cases heq
    · rw [iter_mut_ok h hl (by omega)] at heq
      cases heq
      have ht2 : tilesB 0 size (splitModel (o + len) (splitModel o m)) = true :=
        splitModel_tiles (splitModel_tiles h)
      constructor
      · exact (tilesB_pairwise_start (writeModel_tiles ht2)).sublist
          (List.filter_sublist _)
      · rw [filter_writeModel, List.map_map, List.map_map]
        rfl

/-- Witness for C10 at a concrete valid state. -/
theorem mut_iteration_order_witness :
    List.Pairwise (fun a b : Range × Nat => a.1.start < b.1.start)
      (RangeMap.new 2 (0 : Nat)) ∧
    iter_mut_all (RangeMap.new 2 (0 : Nat)) = (RangeMap.new 2 (0 : Nat)).map Prod.snd ∧
    (∀ (o len : Nat) (f : Nat → Nat) (m' : List (Range × Nat)) (vs : List Nat),
      iter_mut (RangeMap.new 2 (0 : Nat)) o len f = .ok (m', vs) →
      List.Pairwise (fun a b : Range × Nat => a.1.start < b.1.start)
        (m'.filter (fun e => intersects e.1 o len)) ∧
      (m'.filter (fun e => intersects e.1 o len)).map Prod.snd = vs.map f) :=
  @mut_iteration_order Nat (RangeMap.new 2 0) 2 (by decide)

end RM
